import Mathlib

/-!
Shallow embedding of the firescript runtime support layer
(src/firescript/runtime/runtime.c and src/firescript/runtime/varray.c),
together with proofs of the specified properties.

Modelling conventions:
* addresses are natural numbers, with 0 standing for the C NULL pointer;
* the heap allocator is modelled by a fresh-address counter plus an
  explicit success flag for every call to malloc/strdup/realloc
  (the C functions may fail and return NULL);
* machine memory regions are lists of bytes (natural numbers); memcpy and
  memmove become list surgery; bytes obtained from a growing realloc are
  indeterminate in C and are modelled as zero;
* calling into a reference-counted box after it has been freed is
  undefined behaviour in C, modelled as the `none` outcome.
-/

set_option autoImplicit false

namespace Firescript

/-- An address.  `0` models the C NULL pointer. -/
abbrev Ptr := Nat

/-! ### Allocation tracker (runtime.c, `g_ptrs` registry)

The registry is the singly linked list `g_ptrs` of tracked addresses,
most recently added address first.  `Tracker.nextAddr` models the heap:
the next fresh address that a successful `malloc`/`strdup` returns.  -/

/-- State of the allocation tracker: the registry list `g_ptrs` plus the
fresh-address supply of the underlying allocator. -/
structure Tracker where
  g_ptrs : List Ptr
  nextAddr : Ptr
  deriving Repr, DecidableEq

/-- `registry_add` from runtime.c.  A NULL pointer is not recorded; when
the malloc of the internal `PtrNode` fails (`nodeOk = false`) the function
returns without recording (the source comments this as best effort). -/
def registry_add (nodeOk : Bool) (p : Ptr) (reg : List Ptr) : List Ptr :=
  if p = 0 then reg
  else if nodeOk then p :: reg
  else reg

/-- The scanning loop of `registry_remove`: walks the list, unlinks the
first node holding `p`, and reports whether one was found. -/
def removeScan (p : Ptr) : List Ptr → Bool × List Ptr
  | [] => (false, [])
  | q :: rest =>
    if q = p then (true, rest)
    else
      let r := removeScan p rest
      (r.1, q :: r.2)

/-- `registry_remove` from runtime.c: NULL is rejected up front, otherwise
the registry is scanned and the first matching node removed. -/
def registry_remove (p : Ptr) (reg : List Ptr) : Bool × List Ptr :=
  if p = 0 then (false, reg)
  else removeScan p reg

/-- Result of `firescript_malloc`/`firescript_strdup`: the returned
pointer (0 = NULL), the new registry, and the new fresh-address supply. -/
structure AllocOut where
  ret : Ptr
  reg : List Ptr
  nextAddr : Ptr
  deriving Repr, DecidableEq

/-- `firescript_malloc` from runtime.c: `ok` is the success of the
underlying `malloc(size)`, `nodeOk` the success of the registry node
allocation inside `registry_add`. -/
def firescript_malloc (ok nodeOk : Bool) (st : Tracker) : AllocOut :=
  if ok then
    { ret := st.nextAddr
      reg := registry_add nodeOk st.nextAddr st.g_ptrs
      nextAddr := st.nextAddr + 1 }
  else
    { ret := 0
      reg := registry_add nodeOk 0 st.g_ptrs
      nextAddr := st.nextAddr }

/-- `firescript_strdup` from runtime.c: duplicates `s` (NULL is treated
as the empty string) and registers the copy exactly as
`firescript_malloc` does; the string contents play no role in the
tracking state. -/
def firescript_strdup (ok nodeOk : Bool) (_s : Option String) (st : Tracker) : AllocOut :=
  if ok then
    { ret := st.nextAddr
      reg := registry_add nodeOk st.nextAddr st.g_ptrs
      nextAddr := st.nextAddr + 1 }
  else
    { ret := 0
      reg := registry_add nodeOk 0 st.g_ptrs
      nextAddr := st.nextAddr }

/-- `firescript_free` from runtime.c: frees `p` only when
`registry_remove` found and unlinked it.  Returns the new registry and
the list of addresses passed to the real `free`. -/
def firescript_free (p : Ptr) (reg : List Ptr) : List Ptr × List Ptr :=
  let r := registry_remove p reg
  if r.1 then (r.2, [p]) else (r.2, [])

/-- The while loop of `firescript_cleanup`: frees each node's payload in
list order, returning the addresses passed to the real `free`. -/
def cleanupFrees : List Ptr → List Ptr
  | [] => []
  | p :: rest => p :: cleanupFrees rest

/-- `firescript_cleanup` from runtime.c: sweeps the whole registry and
resets `g_ptrs` to NULL.  Returns (addresses freed, new registry). -/
def firescript_cleanup (reg : List Ptr) : List Ptr × List Ptr :=
  (cleanupFrees reg, [])

/-- Well-formedness of a tracker state: the registry holds no duplicates,
no NULL entries, and only addresses already handed out. -/
def Tracker.WF (st : Tracker) : Prop :=
  st.g_ptrs.Nodup ∧ ∀ q ∈ st.g_ptrs, 0 < q ∧ q < st.nextAddr

/-! ### Reference-counted boxes (runtime.c, `RefCountedObject`) -/

/-- An operation performed on a live box. -/
inductive RefOp
  | inc
  | dec
  deriving Repr, DecidableEq

/-- Observable state of one `RefCountedObject` box together with its
destruction history.  `has_destructor` records whether a destructor
function pointer was supplied; `destructor_calls` counts invocations of
that destructor; `freed` records that `free(obj)` has run. -/
structure RefBox where
  has_destructor : Bool
  ref_count : Nat
  destructor_calls : Nat
  freed : Bool
  deriving Repr, DecidableEq

/-- `create_ref_counted_object` from runtime.c (the successful-malloc
case): initial reference count 1, nothing destroyed yet. -/
def create_ref_counted_object (destructor : Bool) : RefBox :=
  { has_destructor := destructor
    ref_count := 1
    destructor_calls := 0
    freed := false }

/-- `increment_ref_count` from runtime.c on a non-NULL box.  Touching a
box after it was freed is undefined behaviour, modelled as `none`. -/
def increment_ref_count (b : RefBox) : Option RefBox :=
  if b.freed then none
  else some { b with ref_count := b.ref_count + 1 }

/-- `decrement_ref_count` from runtime.c on a non-NULL box: decrements,
and when the count reaches 0 invokes the destructor (if one was supplied)
and then frees the box.  Touching a freed box is `none`. -/
def decrement_ref_count (b : RefBox) : Option RefBox :=
  if b.freed then none
  else
    let c := b.ref_count - 1
    if c = 0 then
      some { b with
              ref_count := c
              destructor_calls :=
                b.destructor_calls + (if b.has_destructor then 1 else 0)
              freed := true }
    else some { b with ref_count := c }

/-- Run a sequence of retain/release operations against a box. -/
def runRefOps : RefBox → List RefOp → Option RefBox
  | b, [] => some b
  | b, RefOp.inc :: rest => (increment_ref_count b).bind (fun b' => runRefOps b' rest)
  | b, RefOp.dec :: rest => (decrement_ref_count b).bind (fun b' => runRefOps b' rest)

/-! ### Dynamic arrays (varray.c)

The flexible array member `char data[]` is modelled as a list of bytes of
length `capacity * elem_size`.  `memcpy`/`memmove` become `writeBytes`.
Every `realloc` carries an explicit success flag; on failure `realloc`
returns NULL and leaves the original block intact. -/

/-- A `VArray`: element count, capacity, element byte width, and the raw
backing bytes. -/
structure VArray where
  size : Nat
  capacity : Nat
  elem_size : Nat
  data : List Nat
  deriving Repr, DecidableEq

/-- Well-formedness: the backing buffer has exactly `capacity * elem_size`
bytes and the count never exceeds the capacity. -/
def VArray.WF (va : VArray) : Prop :=
  va.data.length = va.capacity * va.elem_size ∧ va.size ≤ va.capacity

/-- Overwrite the bytes of `d` starting at `offset` with `src`
(`memcpy(d + offset, src, src.length)`). -/
def writeBytes (d : List Nat) (offset : Nat) (src : List Nat) : List Nat :=
  d.take offset ++ src ++ d.drop (offset + src.length)

/-- The bytes kept by `realloc` to a buffer of `n` bytes: the common
portion of the old block survives; any fresh bytes are indeterminate in C
and modelled as zero. -/
def resizeBytes (d : List Nat) (n : Nat) : List Nat :=
  d.take n ++ List.replicate (n - d.length) 0

/-- `varray_create` from varray.c (successful-malloc case): count 0 and an
uninitialised buffer of `capacity * elem_size` bytes, modelled as zeros. -/
def varray_create (capacity elem_size : Nat) : VArray :=
  { size := 0
    capacity := capacity
    elem_size := elem_size
    data := List.replicate (capacity * elem_size) 0 }

/-- `varray_resize` from varray.c: on realloc failure (`ok = false`)
returns NULL (`none`) and the caller keeps the original block; on success
the capacity is updated and the count clamped to it. -/
def varray_resize (ok : Bool) (va : VArray) (new_capacity : Nat) : Option VArray :=
  if ok then
    some { size := min va.size new_capacity
           capacity := new_capacity
           elem_size := va.elem_size
           data := resizeBytes va.data (new_capacity * va.elem_size) }
  else none

/-- The unconditional tail of `varray_append`: memcpy the element into the
slot at index `size`, then increment the count. -/
def pushElem (va : VArray) (element : List Nat) : VArray :=
  { va with
      data := writeBytes va.data (va.size * va.elem_size) element
      size := va.size + 1 }

/-- `varray_append` from varray.c: grows (doubling, minimum 1) when full;
if the growth realloc fails the original array is returned untouched and
nothing is appended. -/
def varray_append (growOk : Bool) (va : VArray) (element : List Nat) : VArray :=
  if va.size ≥ va.capacity then
    let new_capacity := if va.capacity > 0 then va.capacity * 2 else 1
    match varray_resize growOk va new_capacity with
    | none => va
    | some va' => pushElem va' element
  else pushElem va element

/-- The shifting tail of `varray_insert`: memmove the elements in
`[index, size)` one slot to the right, memcpy the element into slot
`index`, then increment the count. -/
def insertShift (va : VArray) (index : Nat) (element : List Nat) : VArray :=
  let shifted := writeBytes va.data ((index + 1) * va.elem_size)
      ((va.data.drop (index * va.elem_size)).take ((va.size - index) * va.elem_size))
  { size := va.size + 1
    capacity := va.capacity
    elem_size := va.elem_size
    data := writeBytes shifted (index * va.elem_size) element }

/-- `varray_insert` from varray.c: `index > size` is a no-op; otherwise
grows when full (failure keeps the array untouched), shifts right and
writes the element. -/
def varray_insert (growOk : Bool) (va : VArray) (index : Nat) (element : List Nat) : VArray :=
  if index > va.size then va
  else if va.size ≥ va.capacity then
    let new_capacity := if va.capacity > 0 then va.capacity * 2 else 1
    match varray_resize growOk va new_capacity with
    | none => va
    | some va' => insertShift va' index element
  else insertShift va index element

/-- The shifting part of `varray_remove` (the state of the local `va`
right after the memmove and the decrement): the elements in
`[index+1, size)` move one slot to the left and the count drops by 1. -/
def removeShift (va : VArray) (index : Nat) : VArray :=
  { size := va.size - 1
    capacity := va.capacity
    elem_size := va.elem_size
    data := writeBytes va.data (index * va.elem_size)
      ((va.data.drop ((index + 1) * va.elem_size)).take
        ((va.size - index - 1) * va.elem_size)) }

/-- `varray_remove` from varray.c: `index >= size` is a no-op; otherwise
memmove the elements in `[index+1, size)` one slot to the left, decrement
the count, and halve the capacity if the count fell below a quarter of a
capacity greater than 1 (a failed shrink realloc keeps the block). -/
def varray_remove (shrinkOk : Bool) (va : VArray) (index : Nat) : VArray :=
  if index ≥ va.size then va
  else if (removeShift va index).capacity > 1 ∧
      (removeShift va index).size < (removeShift va index).capacity / 4 then
    match varray_resize shrinkOk (removeShift va index)
        ((removeShift va index).capacity / 2) with
    | none => removeShift va index
    | some va2 => va2
  else removeShift va index

/-- The element sequence stored in an array: the `size` chunks of
`elem_size` bytes at the start of the buffer. -/
def VArray.elems (va : VArray) : List (List Nat) :=
  (List.range va.size).map
    (fun i => (va.data.drop (i * va.elem_size)).take va.elem_size)

/-- The state of a full array right after the successful doubling realloc
performed by `varray_append`/`varray_insert`: capacity max(1, capacity*2),
the old bytes followed by the indeterminate fresh bytes. -/
def grownArray (va : VArray) : VArray :=
  { size := va.size
    capacity := max 1 (va.capacity * 2)
    elem_size := va.elem_size
    data := va.data ++ List.replicate
      (max 1 (va.capacity * 2) * va.elem_size - va.data.length) 0 }

/-! ### Reference-counted strings (runtime.c)

For string comparison only the payload matters; a box is modelled as
`Option String`, `none` standing for a NULL `RefCountedObject*`. -/

/-- `firescript_strcmp_ref` from runtime.c: when either box pointer is
NULL the result is the pointer comparison `s1_obj == s2_obj`; otherwise
`strcmp` on the payloads. -/
def firescript_strcmp_ref (a b : Option String) : Bool :=
  match a, b with
  | none, none => true
  | none, some _ => false
  | some _, none => false
  | some s1, some s2 => s1 == s2

/-- `firescript_create_string` from runtime.c: copies the argument (NULL
becomes the empty string) into a fresh box; on allocation failure
(`ok = false`) returns NULL. -/
def firescript_create_string (ok : Bool) (s : Option String) : Option String :=
  if ok then
    some (match s with
          | some t => t
          | none => "")
  else none

/-! ### Decimal bridge

`firescript_initDecimal`, `firescript_decimal_add` and
`firescript_decimal_cmp` are declared in runtime.h but their definitions
are not part of the reviewed sources; they are modelled from the spec. -/

/-- Digit accumulation in base 10 over a character run. -/
def decDigits : List Char → Nat → Nat
  | [], acc => acc
  | c :: cs, acc => decDigits cs (acc * 10 + (c.toNat - 48))

/-- Split a decimal literal at the first dot, returning the integer part,
the fraction part, and the number of fraction digits. -/
def decimalPartsAux : List Char → Nat → Nat × Nat × Nat
  | [], ip => (ip, 0, 0)
  | c :: cs, ip =>
    if c = '.' then (ip, decDigits cs 0, cs.length)
    else decimalPartsAux cs (ip * 10 + (c.toNat - 48))

/-- A decimal value, modelled as an exact fraction `num / den`
(`den > 0`, not necessarily reduced). -/
structure Decimal where
  num : Int
  den : Nat
  deriving Repr, DecidableEq

/-- Modelled from the spec: `firescript_initDecimal` (declared in
runtime.h, definition not in the reviewed sources) initialises a decimal
value from base-10 text; the value is modelled as the exact fraction
read from the text. -/
def firescript_initDecimal (s : String) : Decimal :=
  let p := decimalPartsAux s.toList 0
  { num := (p.1* 10 ^ p.2.2 + p.2.1 : Nat), den := 10 ^ p.2.2 }

/-- Modelled from the spec: `firescript_decimal_add` (declared in
runtime.h, definition not in the reviewed sources) computes `a + b` into
the pre-initialised result operand; the triple returned makes explicit
that the operands come back unmodified. -/
def firescript_decimal_add (a b : Decimal) : Decimal × Decimal × Decimal :=
  ({ num := a.num * b.den + b.num * a.den, den := a.den * b.den }, a, b)

/-- Modelled from the spec: `firescript_decimal_cmp` (declared in
runtime.h, definition not in the reviewed sources) returns a negative,
zero or positive ordering indicator for the represented values. -/
def firescript_decimal_cmp (a b : Decimal) : Int :=
  if a.num * b.den < b.num * a.den then -1
  else if b.num * a.den < a.num * b.den then 1
  else 0

/-! ### Helper lemmas: the tracker registry -/

theorem removeScan_eq (p : Ptr) (reg : List Ptr) :
    removeScan p reg = (decide (p ∈ reg), reg.erase p) := by
  induction reg with
  | nil => simp [removeScan]
  | cons q rest ih =>
    by_cases h : q = p
    · subst h
      simp [removeScan, List.erase_cons]
    · simp [removeScan, ih, List.erase_cons, h, Ne.symm h]

theorem cleanupFrees_eq (reg : List Ptr) : cleanupFrees reg = reg := by
  induction reg with
  | nil => rfl
  | cons p rest ih => simp [cleanupFrees, ih]

/-! ### Helper lemmas: reference-counted boxes -/

theorem runRefOps_freed (ops : List RefOp) (b res : RefBox) (hf : b.freed = true)
    (h : runRefOps b ops = some res) : ops = [] ∧ res = b := by
  cases ops with
  | nil =>
    simp [runRefOps] at h
    exact ⟨rfl, h.symm⟩
  | cons op rest =>
    cases op <;> simp [runRefOps, increment_ref_count, decrement_ref_count, hf] at h

theorem runRefOps_invariant (ops : List RefOp) :
    ∀ b res : RefBox, b.freed = false → 0 < b.ref_count →
    runRefOps b ops = some res →
    res.has_destructor = b.has_destructor ∧
    ((res.freed = false ∧ 0 < res.ref_count
        ∧ res.ref_count + ops.count RefOp.dec = b.ref_count + ops.count RefOp.inc
        ∧ res.destructor_calls = b.destructor_calls)
     ∨ (res.freed = true ∧ res.ref_count = 0
        ∧ ops.count RefOp.dec = b.ref_count + ops.count RefOp.inc
        ∧ res.destructor_calls
            = b.destructor_calls + (if b.has_destructor then 1 else 0))) := by
  induction ops with
  | nil =>
    intro b res hf hc h
    simp [runRefOps] at h
    subst h
    exact ⟨rfl, Or.inl ⟨hf, hc, by simp, rfl⟩⟩
  | cons op rest ih =>
    intro b res hf hc h
    cases op with
    | inc =>
      have hd : increment_ref_count b
          = some { b with ref_count := b.ref_count + 1, freed := false } := by
        simp [increment_ref_count, hf]
      simp only [runRefOps] at h
      rw [hd] at h
      simp only [Option.some_bind] at h
      have h' := ih { b with ref_count := b.ref_count + 1, freed := false } res rfl
        (Nat.succ_pos _) h
      refine ⟨h'.1, ?_⟩
      rcases h'.2 with ⟨u1, u2, u3, u4⟩ | ⟨u1, u2, u3, u4⟩
      · exact Or.inl ⟨u1, u2, by simp only [List.count_cons] at u3 ⊢; simp at u3 ⊢; omega, u4⟩
      · exact Or.inr ⟨u1, u2, by simp only [List.count_cons] at u3 ⊢; simp at u3 ⊢; omega, u4⟩
    | dec =>
      by_cases hone : b.ref_count - 1 = 0
      · have hrc : b.ref_count = 1 := by omega
        have hd : decrement_ref_count b
            = some { b with
                ref_count := b.ref_count - 1,
                destructor_calls :=
                  b.destructor_calls + (if b.has_destructor then 1 else 0),
                freed := true } := by
          simp [decrement_ref_count, hf, hone]
        simp only [runRefOps] at h
        rw [hd] at h
        simp only [Option.some_bind] at h
        have hstep := runRefOps_freed rest _ res rfl h
        rcases hstep with ⟨hrest, hres⟩
        subst hrest
        subst hres
        refine ⟨rfl, Or.inr ⟨rfl, hone, ?_, rfl⟩⟩
        simp [hrc]
      · have hd : decrement_ref_count b
            = some { b with ref_count := b.ref_count - 1, freed := false } := by
          simp [decrement_ref_count, hf, hone]
        simp only [runRefOps] at h
        rw [hd] at h
        simp only [Option.some_bind] at h
        have h' := ih { b with ref_count := b.ref_count - 1, freed := false } res rfl
          (Nat.pos_of_ne_zero hone) h
        refine ⟨h'.1, ?_⟩
        rcases h'.2 with ⟨u1, u2, u3, u4⟩ | ⟨u1, u2, u3, u4⟩
        · exact Or.inl ⟨u1, u2, by simp only [List.count_cons] at u3 ⊢; simp at u3 ⊢; omega, u4⟩
        · exact Or.inr ⟨u1, u2, by simp only [List.count_cons] at u3 ⊢; simp at u3 ⊢; omega, u4⟩

/-! ### Claim theorems -/

/-- Claim C1: for every box created by `create_ref_counted_object`
(reference count 1, destructor supplied) and every defined sequence of
`increment_ref_count`/`decrement_ref_count` calls on it, the destructor
runs exactly once, precisely when the number of decrements equals 1 plus
the number of increments, never earlier and never twice, and the box is
freed together with that destructor invocation. -/
theorem destructor_fires_once (ops : List RefOp) (res : RefBox)
    (h : runRefOps (create_ref_counted_object true) ops = some res) :
    (res.freed = true ↔ ops.count RefOp.dec = 1 + ops.count RefOp.inc)
    ∧ (res.freed = true → res.destructor_calls = 1 ∧ res.ref_count = 0)
    ∧ (res.freed = false → res.destructor_calls = 0
        ∧ ops.count RefOp.dec ≤ ops.count RefOp.inc)
    ∧ res.destructor_calls ≤ 1 := by
  have hinv := runRefOps_invariant ops (create_ref_counted_object true) res rfl
    (by simp [create_ref_counted_object]) h
  rcases hinv.2 with ⟨u1, u2, u3, u4⟩ | ⟨u1, u2, u3, u4⟩ <;>
    simp [create_ref_counted_object] at u3 u4 <;>
    constructor
  · constructor
    · intro hfr; rw [u1] at hfr; cases hfr
    · intro hcontra; omega
  · refine ⟨?_, ?_, ?_⟩
    · intro hfr; rw [u1] at hfr; cases hfr
    · intro _; exact ⟨u4, by omega⟩
    · omega
  · constructor
    · intro _; omega
    · intro _; exact u1
  · refine ⟨?_, ?_, ?_⟩
    · intro _; exact ⟨u4, u2⟩
    · intro hfr; rw [u1] at hfr; cases hfr
    · omega

/-- Witness for C1 at the concrete operation sequence retain, release,
release. -/
theorem destructor_fires_once_witness :
    ((RefBox.mk true 0 1 true).freed = true ↔
      ([RefOp.inc, RefOp.dec, RefOp.dec].count RefOp.dec
        = 1 + [RefOp.inc, RefOp.dec, RefOp.dec].count RefOp.inc))
    ∧ ((RefBox.mk true 0 1 true).freed = true →
        (RefBox.mk true 0 1 true).destructor_calls = 1
        ∧ (RefBox.mk true 0 1 true).ref_count = 0)
    ∧ ((RefBox.mk true 0 1 true).freed = false →
        (RefBox.mk true 0 1 true).destructor_calls = 0
        ∧ [RefOp.inc, RefOp.dec, RefOp.dec].count RefOp.dec
            ≤ [RefOp.inc, RefOp.dec, RefOp.dec].count RefOp.inc)
    ∧ (RefBox.mk true 0 1 true).destructor_calls ≤ 1 :=
  destructor_fires_once [RefOp.inc, RefOp.dec, RefOp.dec]
    (RefBox.mk true 0 1 true) (by decide)

/-- Claim C2: `firescript_free` frees a pointer exactly when it is a
member of the tracked live set, removing that one membership; on a
non-member (including an already-released pointer) it frees nothing and
leaves the registry unchanged. -/
theorem firescript_free_iff_member (p : Ptr) (reg : List Ptr) (h0 : 0 ∉ reg) :
    (p ∈ reg → firescript_free p reg = (reg.erase p, [p]))
    ∧ (p ∉ reg → firescript_free p reg = (reg, [])) := by
  by_cases hp : p = 0
  · subst hp
    refine ⟨fun hmem => absurd hmem h0, fun _ => ?_⟩
    simp [firescript_free, registry_remove]
  · constructor
    · intro hmem
      simp [firescript_free, registry_remove, hp, removeScan_eq, hmem]
    · intro hmem
      simp [firescript_free, registry_remove, hp, removeScan_eq, hmem,
        List.erase_of_not_mem hmem]

/-- Witness for C2: both the member case (5 in the registry) and the
non-member / double-free case (5 already removed). -/
theorem firescript_free_iff_member_witness :
    ((5 : Ptr) ∈ [5, 7] → firescript_free 5 [5, 7] = (([5, 7] : List Ptr).erase 5, [5]))
    ∧ ((5 : Ptr) ∉ [5, 7] → firescript_free 5 [5, 7] = ([5, 7], []))
    ∧ ((5 : Ptr) ∈ [7] → firescript_free 5 [7] = (([7] : List Ptr).erase 5, [5]))
    ∧ ((5 : Ptr) ∉ [7] → firescript_free 5 [7] = ([7], [])) :=
  ⟨(firescript_free_iff_member 5 [5, 7] (by decide)).1,
   (firescript_free_iff_member 5 [5, 7] (by decide)).2,
   (firescript_free_iff_member 5 [7] (by decide)).1,
   (firescript_free_iff_member 5 [7] (by decide)).2⟩

/-- Claim C3: `firescript_cleanup` frees exactly the addresses remaining
in the live set (each exactly once when the set is duplicate-free) and
leaves the live set empty. -/
theorem firescript_cleanup_sweeps (reg : List Ptr) (hnd : reg.Nodup) :
    (firescript_cleanup reg).2 = []
    ∧ (firescript_cleanup reg).1 = reg
    ∧ ∀ p ∈ reg, (firescript_cleanup reg).1.count p = 1 := by
  refine ⟨rfl, cleanupFrees_eq reg, fun p hp => ?_⟩
  rw [show (firescript_cleanup reg).1 = reg from cleanupFrees_eq reg]
  exact List.count_eq_one_of_mem hnd hp

/-- Witness for C3 at the concrete registry [4, 9]. -/
theorem firescript_cleanup_sweeps_witness :
    (firescript_cleanup [4, 9]).2 = []
    ∧ (firescript_cleanup [4, 9]).1 = [4, 9]
    ∧ ∀ p ∈ ([4, 9] : List Ptr), (firescript_cleanup [4, 9]).1.count p = 1 :=
  firescript_cleanup_sweeps [4, 9] (by decide)

/-- Claim C10: `firescript_cleanup` is idempotent — after one call the
registry is empty, and a second call (or a call on a never-used registry)
frees nothing and leaves the registry empty, so two runs have the same
effect on the registry as one. -/
theorem firescript_cleanup_idempotent (reg : List Ptr) :
    firescript_cleanup ((firescript_cleanup reg).2) = ([], [])
    ∧ (firescript_cleanup ((firescript_cleanup reg).2)).2
        = (firescript_cleanup reg).2
    ∧ firescript_cleanup [] = ([], []) := by
  simp [firescript_cleanup, cleanupFrees]

/-- Claim C8: `firescript_strcmp_ref` is true exactly when the payload
contents match; two NULL boxes compare equal; a box holding the empty
string does not compare equal to a NULL box. -/
theorem firescript_strcmp_ref_spec :
    (∀ s t : String, firescript_strcmp_ref (some s) (some t) = true ↔ s = t)
    ∧ firescript_strcmp_ref none none = true
    ∧ (∀ s : String, firescript_strcmp_ref (some s) none = false
        ∧ firescript_strcmp_ref none (some s) = false)
    ∧ firescript_strcmp_ref (firescript_create_string true (some "")) none = false := by
  refine ⟨fun s t => ?_, rfl, fun s => ⟨rfl, rfl⟩, rfl⟩
  simp [firescript_strcmp_ref]

/-- Claim C9: parsing "1.5" and "2.5", adding with the decimal add, and
comparing against the parse of "4.0" yields the equal ordering; the
operands come back from the addition unmodified. -/
theorem decimal_add_parse :
    firescript_decimal_cmp
        (firescript_decimal_add (firescript_initDecimal "1.5")
          (firescript_initDecimal "2.5")).1
        (firescript_initDecimal "4.0") = 0
    ∧ (firescript_decimal_add (firescript_initDecimal "1.5")
        (firescript_initDecimal "2.5")).2.1 = firescript_initDecimal "1.5"
    ∧ (firescript_decimal_add (firescript_initDecimal "1.5")
        (firescript_initDecimal "2.5")).2.2 = firescript_initDecimal "2.5" := by
  refine ⟨?_, rfl, rfl⟩
  decide

/-- Claim C4 counterexample: with a successful payload malloc but a
failed registry-node malloc (the best-effort branch of `registry_add`),
`firescript_malloc` returns the non-NULL address 1 which is not a member
of the live set. -/
theorem malloc_unregistered_on_node_failure :
    (firescript_malloc true false (Tracker.mk [] 1)).ret ≠ 0
    ∧ (firescript_malloc true false (Tracker.mk [] 1)).ret
        ∉ (firescript_malloc true false (Tracker.mk [] 1)).reg := by
  decide

/-- Claim C4 (amended): provided the registry's internal tracking-node
allocation succeeds, every non-NULL pointer returned by
`firescript_malloc` or `firescript_strdup` is a member of the live set at
return, a NULL result leaves the set unregistered, and (for any node
outcome) the set never contains the same address twice. -/
theorem malloc_strdup_register (ok : Bool) (s : Option String) (st : Tracker)
    (hwf : st.WF) :
    ((firescript_malloc ok true st).ret ≠ 0 →
        (firescript_malloc ok true st).ret ∈ (firescript_malloc ok true st).reg)
    ∧ ((firescript_strdup ok true s st).ret ≠ 0 →
        (firescript_strdup ok true s st).ret ∈ (firescript_strdup ok true s st).reg)
    ∧ (firescript_malloc false true st).ret = 0
    ∧ (firescript_malloc false true st).reg = st.g_ptrs
    ∧ (firescript_strdup false true s st).ret = 0
    ∧ (firescript_strdup false true s st).reg = st.g_ptrs
    ∧ ∀ nk : Bool, (firescript_malloc ok nk st).reg.Nodup
        ∧ (firescript_strdup ok nk s st).reg.Nodup := by
  have hfresh : st.nextAddr ∉ st.g_ptrs := by
    intro hmem
    exact absurd (hwf.2 st.nextAddr hmem).2 (lt_irrefl _)
  have hadd : ∀ nk : Bool, (registry_add nk st.nextAddr st.g_ptrs).Nodup := by
    intro nk
    by_cases hz : st.nextAddr = 0
    · simpa [registry_add, hz] using hwf.1
    · cases nk <;> simp [registry_add, hz, hwf.1, hfresh]
  refine ⟨?_, ?_, ?_, ?_, ?_, ?_, ?_⟩
  · intro hret
    cases ok with
    | false => simp [firescript_malloc] at hret
    | true =>
      simp [firescript_malloc] at hret ⊢
      simp [registry_add, hret]
  · intro hret
    cases ok with
    | false => simp [firescript_strdup] at hret
    | true =>
      simp [firescript_strdup] at hret ⊢
      simp [registry_add, hret]
  · rfl
  · simp [firescript_malloc, registry_add]
  · rfl
  · simp [firescript_strdup, registry_add]
  · intro nk
    cases ok with
    | false =>
      constructor <;> simp [firescript_malloc, firescript_strdup, registry_add, hwf.1]
    | true =>
      exact ⟨by simpa [firescript_malloc] using hadd nk,
        by simpa [firescript_strdup] using hadd nk⟩

/-- Witness for the amended C4 at the empty well-formed tracker state. -/
theorem malloc_strdup_register_witness :
    ((firescript_malloc true true (Tracker.mk [] 1)).ret ≠ 0 →
        (firescript_malloc true true (Tracker.mk [] 1)).ret
          ∈ (firescript_malloc true true (Tracker.mk [] 1)).reg)
    ∧ ((firescript_strdup true true none (Tracker.mk [] 1)).ret ≠ 0 →
        (firescript_strdup true true none (Tracker.mk [] 1)).ret
          ∈ (firescript_strdup true true none (Tracker.mk [] 1)).reg)
    ∧ (firescript_malloc false true (Tracker.mk [] 1)).ret = 0
    ∧ (firescript_malloc false true (Tracker.mk [] 1)).reg = ([] : List Ptr)
    ∧ (firescript_strdup false true none (Tracker.mk [] 1)).ret = 0
    ∧ (firescript_strdup false true none (Tracker.mk [] 1)).reg = ([] : List Ptr)
    ∧ ∀ nk : Bool, (firescript_malloc true nk (Tracker.mk [] 1)).reg.Nodup
        ∧ (firescript_strdup true nk none (Tracker.mk [] 1)).reg.Nodup :=
  malloc_strdup_register true none (Tracker.mk [] 1)
    ⟨by decide, by intro q hq; cases hq⟩

/-! ### Helper lemmas: byte surgery -/

theorem writeBytes_length (d src : List Nat) (offset : Nat)
    (h : offset + src.length ≤ d.length) :
    (writeBytes d offset src).length = d.length := by
  simp [writeBytes]
  omega

theorem writeBytes_take_le (d src : List Nat) (offset m : Nat)
    (hm : m ≤ offset) (h : offset ≤ d.length) :
    (writeBytes d offset src).take m = d.take m := by
  rw [writeBytes,
    List.take_append_of_le_length (by rw [List.length_append, List.length_take]; omega),
    List.take_append_of_le_length (by rw [List.length_take]; omega),
    List.take_take, min_eq_left hm]

theorem writeBytes_take (d src : List Nat) (offset : Nat) (h : offset ≤ d.length) :
    (writeBytes d offset src).take offset = d.take offset :=
  writeBytes_take_le d src offset offset le_rfl h

theorem writeBytes_extract (d src : List Nat) (offset : Nat) (h : offset ≤ d.length) :
    ((writeBytes d offset src).drop offset).take src.length = src := by
  rw [writeBytes,
    List.drop_append_of_le_length (by rw [List.length_append, List.length_take]; omega),
    List.drop_left' (by rw [List.length_take]; omega), List.take_left' rfl]

theorem writeBytes_drop (d src : List Nat) (offset : Nat) (h : offset ≤ d.length) :
    (writeBytes d offset src).drop (offset + src.length)
      = d.drop (offset + src.length) := by
  rw [writeBytes,
    List.drop_left' (by rw [List.length_append, List.length_take]; omega)]

theorem resizeBytes_length (d : List Nat) (n : Nat) : (resizeBytes d n).length = n := by
  simp [resizeBytes]
  omega

theorem resizeBytes_of_le (d : List Nat) (n : Nat) (h : d.length ≤ n) :
    resizeBytes d n = d ++ List.replicate (n - d.length) 0 := by
  rw [resizeBytes, List.take_of_length_le h]

theorem resizeBytes_of_ge (d : List Nat) (n : Nat) (h : n ≤ d.length) :
    resizeBytes d n = d.take n := by
  rw [resizeBytes, Nat.sub_eq_zero_of_le h, List.replicate_zero, List.append_nil]

theorem chunk_of_take (d : List Nat) (es n i : Nat) (hi : i < n) :
    ((d.take (n * es)).drop (i * es)).take es = (d.drop (i * es)).take es := by
  rw [List.drop_take, List.take_take]
  have h1 : i * es + es ≤ n * es := by
    have h2 : (i + 1) * es ≤ n * es := mul_le_mul_right' (by omega) es
    calc i * es + es = (i + 1) * es := by ring
    _ ≤ n * es := h2
  rw [min_eq_left (by omega)]

theorem elems_eq_of_take_eq (va vb : VArray) (hsize : va.size = vb.size)
    (hes : va.elem_size = vb.elem_size)
    (hdata : va.data.take (va.size * va.elem_size)
        = vb.data.take (vb.size * vb.elem_size)) :
    va.elems = vb.elems := by
  have hdata' := hdata
  rw [← hsize, ← hes] at hdata'
  rw [VArray.elems, VArray.elems, ← hsize, ← hes]
  apply List.map_congr_left
  intro i hi
  rw [List.mem_range] at hi
  rw [← chunk_of_take va.data va.elem_size va.size i hi, hdata',
    chunk_of_take vb.data va.elem_size va.size i hi]

/-- Claim C5: appending to a full array (count = capacity): if the growth
reallocation fails the array is returned completely unchanged and nothing
is appended; if it succeeds the capacity becomes max(1, capacity*2), the
existing bytes are preserved, the element lands in the next slot, and the
count rises by 1. -/
theorem varray_append_full (va : VArray) (e : List Nat)
    (hwf : va.WF) (hlen : e.length = va.elem_size) (hfull : va.size = va.capacity) :
    varray_append false va e = va
    ∧ (varray_append true va e).capacity = max 1 (va.capacity * 2)
    ∧ (varray_append true va e).size = va.size + 1
    ∧ (varray_append true va e).elem_size = va.elem_size
    ∧ (varray_append true va e).data.take va.data.length = va.data
    ∧ ((varray_append true va e).data.drop (va.size * va.elem_size)).take
        va.elem_size = e := by
  obtain ⟨hdl, _⟩ := hwf
  have hge : va.size ≥ va.capacity := le_of_eq hfull.symm
  have hnc : (if va.capacity > 0 then va.capacity * 2 else 1)
      = max 1 (va.capacity * 2) := by
    by_cases hc : va.capacity > 0
    · rw [if_pos hc]
      omega
    · rw [if_neg hc]
      omega
  have hle : va.data.length ≤ max 1 (va.capacity * 2) * va.elem_size := by
    rw [hdl]
    exact mul_le_mul_right' (by omega) va.elem_size
  have hr : varray_resize true va (max 1 (va.capacity * 2))
      = some { size := va.size, capacity := max 1 (va.capacity * 2),
               elem_size := va.elem_size,
               data := va.data ++ List.replicate
                 (max 1 (va.capacity * 2) * va.elem_size - va.data.length) 0 } := by
    rw [varray_resize, if_pos rfl]
    simp only [Option.some.injEq, VArray.mk.injEq]
    exact ⟨by omega, trivial, trivial, resizeBytes_of_le _ _ hle⟩
  have key : varray_append true va e
      = { size := va.size + 1,
          capacity := max 1 (va.capacity * 2),
          elem_size := va.elem_size,
          data := writeBytes
            (va.data ++ List.replicate
              (max 1 (va.capacity * 2) * va.elem_size - va.data.length) 0)
            (va.size * va.elem_size) e } := by
    rw [varray_append, if_pos hge, hnc]
    simp only [hr]
    rfl
  have hofflen : va.size * va.elem_size ≤
      (va.data ++ List.replicate
        (max 1 (va.capacity * 2) * va.elem_size - va.data.length) 0).length := by
    rw [List.length_append, hdl, List.length_replicate]
    have : va.size * va.elem_size ≤ va.capacity * va.elem_size :=
      mul_le_mul_right' (le_of_eq hfull) va.elem_size
    omega
  refine ⟨?_, ?_, ?_, ?_, ?_, ?_⟩
  · rw [varray_append, if_pos hge]
    rfl
  · rw [key]
  · rw [key]
  · rw [key]
  · rw [key]
    show (writeBytes _ (va.size * va.elem_size) e).take va.data.length = va.data
    have hoff : va.size * va.elem_size = va.data.length := by rw [hdl, hfull]
    rw [hoff] at hofflen ⊢
    rw [writeBytes_take _ _ _ hofflen, List.take_append_of_le_length le_rfl,
      List.take_of_length_le le_rfl]
  · rw [key]
    show ((writeBytes _ (va.size * va.elem_size) e).drop
      (va.size * va.elem_size)).take va.elem_size = e
    have hx := writeBytes_extract _ e (va.size * va.elem_size) hofflen
    rw [hlen] at hx
    exact hx

/-- Witness for C5 at the concrete full array [1, 2] of byte-wide
elements with capacity 2, appending the element [9]. -/
theorem varray_append_full_witness :
    varray_append false (VArray.mk 2 2 1 [1, 2]) [9] = VArray.mk 2 2 1 [1, 2]
    ∧ (varray_append true (VArray.mk 2 2 1 [1, 2]) [9]).capacity = max 1 (2 * 2)
    ∧ (varray_append true (VArray.mk 2 2 1 [1, 2]) [9]).size = 2 + 1
    ∧ (varray_append true (VArray.mk 2 2 1 [1, 2]) [9]).elem_size = 1
    ∧ (varray_append true (VArray.mk 2 2 1 [1, 2]) [9]).data.take
        (VArray.mk 2 2 1 [1, 2]).data.length = [1, 2]
    ∧ ((varray_append true (VArray.mk 2 2 1 [1, 2]) [9]).data.drop (2 * 1)).take 1
        = [9] :=
  varray_append_full (VArray.mk 2 2 1 [1, 2]) [9] ⟨rfl, by decide⟩ rfl rfl

/-! ### Helper lemmas: varray_remove -/

theorem removeShift_size (va : VArray) (index : Nat) :
    (removeShift va index).size = va.size - 1 := rfl

theorem removeShift_capacity (va : VArray) (index : Nat) :
    (removeShift va index).capacity = va.capacity := rfl

theorem removeShift_elem (va : VArray) (index : Nat) :
    (removeShift va index).elem_size = va.elem_size := rfl

theorem removeShift_data (va : VArray) (index : Nat) :
    (removeShift va index).data = writeBytes va.data (index * va.elem_size)
      ((va.data.drop ((index + 1) * va.elem_size)).take
        ((va.size - index - 1) * va.elem_size)) := rfl

theorem remove_core (vb : VArray) (index : Nat)
    (hdl : vb.data.length = vb.capacity * vb.elem_size)
    (hsc : vb.size ≤ vb.capacity) (hidx : index < vb.size) :
    (varray_remove true vb index).size = vb.size - 1
    ∧ (varray_remove true vb index).elem_size = vb.elem_size
    ∧ (varray_remove true vb index).capacity
        = (if vb.capacity > 1 ∧ vb.size - 1 < vb.capacity / 4
           then vb.capacity / 2 else vb.capacity)
    ∧ (varray_remove true vb index).data.take (index * vb.elem_size)
        = vb.data.take (index * vb.elem_size)
    ∧ ((varray_remove true vb index).data.drop (index * vb.elem_size)).take
          ((vb.size - index - 1) * vb.elem_size)
        = (vb.data.drop ((index + 1) * vb.elem_size)).take
            ((vb.size - index - 1) * vb.elem_size) := by
  have hnot : ¬ index ≥ vb.size := by omega
  have hseglen : ((vb.data.drop ((index + 1) * vb.elem_size)).take
      ((vb.size - index - 1) * vb.elem_size)).length
      = (vb.size - index - 1) * vb.elem_size := by
    have hsegb : (index + 1) * vb.elem_size + (vb.size - index - 1) * vb.elem_size
        ≤ vb.data.length := by
      rw [hdl, ← Nat.add_mul]
      exact mul_le_mul_right' (by omega) vb.elem_size
    rw [List.length_take, List.length_drop]
    omega
  have hidxle : index * vb.elem_size ≤ vb.data.length := by
    rw [hdl]
    exact mul_le_mul_right' (by omega) vb.elem_size
  have hwb : index * vb.elem_size + ((vb.data.drop ((index + 1) * vb.elem_size)).take
      ((vb.size - index - 1) * vb.elem_size)).length ≤ vb.data.length := by
    rw [hseglen, ← Nat.add_mul, hdl]
    exact mul_le_mul_right' (by omega) vb.elem_size
  have hMlen : (removeShift vb index).data.length = vb.data.length := by
    rw [removeShift_data]
    exact writeBytes_length _ _ _ hwb
  have hMtake : (removeShift vb index).data.take (index * vb.elem_size)
      = vb.data.take (index * vb.elem_size) := by
    rw [removeShift_data]
    exact writeBytes_take _ _ _ hidxle
  have hMext : ((removeShift vb index).data.drop (index * vb.elem_size)).take
      ((vb.size - index - 1) * vb.elem_size)
      = (vb.data.drop ((index + 1) * vb.elem_size)).take
          ((vb.size - index - 1) * vb.elem_size) := by
    have hx := writeBytes_extract vb.data
      ((vb.data.drop ((index + 1) * vb.elem_size)).take
        ((vb.size - index - 1) * vb.elem_size)) (index * vb.elem_size) hidxle
    rw [hseglen] at hx
    rw [removeShift_data]
    exact hx
  by_cases hc : vb.capacity > 1 ∧ vb.size - 1 < vb.capacity / 4
  · have hq24 : vb.capacity / 4 ≤ vb.capacity / 2 := by omega
    have key : varray_remove true vb index
        = { size := min (vb.size - 1) (vb.capacity / 2),
            capacity := vb.capacity / 2,
            elem_size := vb.elem_size,
            data := resizeBytes (removeShift vb index).data
              (vb.capacity / 2 * vb.elem_size) } := by
      rw [varray_remove, if_neg hnot]
      simp only [removeShift_capacity, removeShift_size]
      rw [if_pos hc]
      rfl
    have hrs : resizeBytes (removeShift vb index).data
        (vb.capacity / 2 * vb.elem_size)
        = (removeShift vb index).data.take (vb.capacity / 2 * vb.elem_size) := by
      refine resizeBytes_of_ge _ _ ?_
      rw [hMlen, hdl]
      exact mul_le_mul_right' (by omega) vb.elem_size
    have hix : index * vb.elem_size ≤ vb.capacity / 2 * vb.elem_size :=
      mul_le_mul_right' (by omega) vb.elem_size
    have hnn : (vb.size - index - 1) * vb.elem_size + index * vb.elem_size
        ≤ vb.capacity / 2 * vb.elem_size := by
      rw [← Nat.add_mul]
      exact mul_le_mul_right' (by omega) vb.elem_size
    refine ⟨?_, ?_, ?_, ?_, ?_⟩
    · rw [key]
      dsimp only
      omega
    · rw [key]
    · rw [key, if_pos hc]
    · rw [key]
      dsimp only
      rw [hrs, List.take_take, min_eq_left hix]
      exact hMtake
    · rw [key]
      dsimp only
      rw [hrs, List.drop_take, List.take_take, min_eq_left (by omega)]
      exact hMext
  · have key : varray_remove true vb index = removeShift vb index := by
      rw [varray_remove, if_neg hnot]
      simp only [removeShift_capacity, removeShift_size]
      rw [if_neg hc]
    refine ⟨?_, ?_, ?_, ?_, ?_⟩
    · rw [key, removeShift_size]
    · rw [key, removeShift_elem]
    · rw [key, if_neg hc, removeShift_capacity]
    · rw [key]
      exact hMtake
    · rw [key]
      exact hMext

/-- Claim C6: `varray_remove` on a valid index shifts the elements in
`[index+1, count)` left by one element width and decrements the count;
it halves the capacity exactly when the new count is below one quarter of
the capacity (integer arithmetic, as the halving itself is) and the
capacity exceeds 1, preserving the element bytes up to the new capacity;
an index at or past the count is a complete no-op. -/
theorem varray_remove_spec (va : VArray) (index : Nat) (hwf : va.WF)
    (hidx : index < va.size) :
    (∀ ok : Bool, ∀ j, va.size ≤ j → varray_remove ok va j = va)
    ∧ (varray_remove true va index).size = va.size - 1
    ∧ (varray_remove true va index).elem_size = va.elem_size
    ∧ (varray_remove true va index).capacity
        = (if va.capacity > 1 ∧ va.size - 1 < va.capacity / 4
           then va.capacity / 2 else va.capacity)
    ∧ (varray_remove true va index).data.take (index * va.elem_size)
        = va.data.take (index * va.elem_size)
    ∧ ((varray_remove true va index).data.drop (index * va.elem_size)).take
          ((va.size - index - 1) * va.elem_size)
        = (va.data.drop ((index + 1) * va.elem_size)).take
            ((va.size - index - 1) * va.elem_size) := by
  obtain ⟨hdl, hsc⟩ := hwf
  have hcore := remove_core va index hdl hsc hidx
  exact ⟨fun ok j hj => by rw [varray_remove, if_pos hj],
    hcore.1, hcore.2.1, hcore.2.2.1, hcore.2.2.2.1, hcore.2.2.2.2⟩

/-- Witness for C6 at the concrete array [1, 2] of byte-wide elements
with capacity 8 (so removing at index 0 triggers the shrink to 4). -/
theorem varray_remove_spec_witness :
    (∀ ok : Bool, ∀ j, (VArray.mk 2 8 1 [1, 2, 0, 0, 0, 0, 0, 0]).size ≤ j →
        varray_remove ok (VArray.mk 2 8 1 [1, 2, 0, 0, 0, 0, 0, 0]) j
          = VArray.mk 2 8 1 [1, 2, 0, 0, 0, 0, 0, 0])
    ∧ (varray_remove true (VArray.mk 2 8 1 [1, 2, 0, 0, 0, 0, 0, 0]) 0).size = 2 - 1
    ∧ (varray_remove true (VArray.mk 2 8 1 [1, 2, 0, 0, 0, 0, 0, 0]) 0).elem_size = 1
    ∧ (varray_remove true (VArray.mk 2 8 1 [1, 2, 0, 0, 0, 0, 0, 0]) 0).capacity
        = (if 8 > 1 ∧ 2 - 1 < 8 / 4 then 8 / 2 else 8)
    ∧ (varray_remove true (VArray.mk 2 8 1 [1, 2, 0, 0, 0, 0, 0, 0]) 0).data.take
        (0 * 1) = ([1, 2, 0, 0, 0, 0, 0, 0] : List Nat).take (0 * 1)
    ∧ ((varray_remove true (VArray.mk 2 8 1 [1, 2, 0, 0, 0, 0, 0, 0]) 0).data.drop
          (0 * 1)).take ((2 - 0 - 1) * 1)
        = (([1, 2, 0, 0, 0, 0, 0, 0] : List Nat).drop ((0 + 1) * 1)).take
            ((2 - 0 - 1) * 1) :=
  varray_remove_spec (VArray.mk 2 8 1 [1, 2, 0, 0, 0, 0, 0, 0]) 0
    ⟨rfl, by decide⟩ (by decide)

/-! ### Helper lemmas: varray_insert / roundtrip -/

theorem insertShift_size (va : VArray) (index : Nat) (e : List Nat) :
    (insertShift va index e).size = va.size + 1 := rfl

theorem insertShift_capacity (va : VArray) (index : Nat) (e : List Nat) :
    (insertShift va index e).capacity = va.capacity := rfl

theorem insertShift_elem (va : VArray) (index : Nat) (e : List Nat) :
    (insertShift va index e).elem_size = va.elem_size := rfl

theorem insertShift_data (va : VArray) (index : Nat) (e : List Nat) :
    (insertShift va index e).data
      = writeBytes (writeBytes va.data ((index + 1) * va.elem_size)
          ((va.data.drop (index * va.elem_size)).take
            ((va.size - index) * va.elem_size)))
        (index * va.elem_size) e := rfl

theorem insert_remove_core (vb : VArray) (i : Nat) (e : List Nat)
    (hlen : e.length = vb.elem_size) (hle : i ≤ vb.size)
    (hroom : vb.size < vb.capacity)
    (hdl : vb.data.length = vb.capacity * vb.elem_size) :
    (varray_remove true (insertShift vb i e) i).size = vb.size
    ∧ (varray_remove true (insertShift vb i e) i).elem_size = vb.elem_size
    ∧ (varray_remove true (insertShift vb i e) i).data.take
        (vb.size * vb.elem_size) = vb.data.take (vb.size * vb.elem_size) := by
  have hsucc : (i + 1) * vb.elem_size = i * vb.elem_size + vb.elem_size := by ring
  have hi1 : (i + 1) * vb.elem_size ≤ vb.data.length := by
    rw [hdl]
    exact mul_le_mul_right' (by omega) vb.elem_size
  have hile : i * vb.elem_size ≤ vb.data.length :=
    le_trans (by omega) hi1
  have hseg1len : ((vb.data.drop (i * vb.elem_size)).take
      ((vb.size - i) * vb.elem_size)).length = (vb.size - i) * vb.elem_size := by
    have hb : i * vb.elem_size + (vb.size - i) * vb.elem_size ≤ vb.data.length := by
      rw [← Nat.add_mul, hdl]
      exact mul_le_mul_right' (by omega) vb.elem_size
    rw [List.length_take, List.length_drop]
    omega
  have hshlen : (writeBytes vb.data ((i + 1) * vb.elem_size)
      ((vb.data.drop (i * vb.elem_size)).take ((vb.size - i) * vb.elem_size))).length
      = vb.data.length := by
    refine writeBytes_length _ _ _ ?_
    rw [hseg1len, ← Nat.add_mul, hdl]
    exact mul_le_mul_right' (by omega) vb.elem_size
  have hish : i * vb.elem_size ≤ (writeBytes vb.data ((i + 1) * vb.elem_size)
      ((vb.data.drop (i * vb.elem_size)).take
        ((vb.size - i) * vb.elem_size))).length := by
    rw [hshlen]
    exact hile
  have hBlen : (insertShift vb i e).data.length = vb.data.length := by
    rw [insertShift_data]
    refine Eq.trans (writeBytes_length _ _ _ ?_) hshlen
    rw [hlen, hshlen, ← hsucc]
    exact hi1
  have hBtake : (insertShift vb i e).data.take (i * vb.elem_size)
      = vb.data.take (i * vb.elem_size) := by
    rw [insertShift_data, writeBytes_take _ _ _ hish]
    exact writeBytes_take_le _ _ _ _ (by omega) hi1
  have hBdrop : (insertShift vb i e).data.drop ((i + 1) * vb.elem_size)
      = (writeBytes vb.data ((i + 1) * vb.elem_size)
          ((vb.data.drop (i * vb.elem_size)).take
            ((vb.size - i) * vb.elem_size))).drop ((i + 1) * vb.elem_size) := by
    rw [insertShift_data]
    have hx := writeBytes_drop (writeBytes vb.data ((i + 1) * vb.elem_size)
      ((vb.data.drop (i * vb.elem_size)).take ((vb.size - i) * vb.elem_size)))
      e (i * vb.elem_size) hish
    rw [hlen, ← hsucc] at hx
    exact hx
  have hshextract : ((writeBytes vb.data ((i + 1) * vb.elem_size)
      ((vb.data.drop (i * vb.elem_size)).take ((vb.size - i) * vb.elem_size))).drop
        ((i + 1) * vb.elem_size)).take ((vb.size - i) * vb.elem_size)
      = (vb.data.drop (i * vb.elem_size)).take ((vb.size - i) * vb.elem_size) := by
    have hx := writeBytes_extract vb.data
      ((vb.data.drop (i * vb.elem_size)).take ((vb.size - i) * vb.elem_size))
      ((i + 1) * vb.elem_size) hi1
    rw [hseg1len] at hx
    exact hx
  have hcore := remove_core (insertShift vb i e) i
    (by rw [hBlen, insertShift_capacity, insertShift_elem, hdl])
    (by rw [insertShift_size, insertShift_capacity]; omega)
    (by rw [insertShift_size]; omega)
  have hsz : (varray_remove true (insertShift vb i e) i).size = vb.size := by
    rw [hcore.1, insertShift_size]
    omega
  have hes : (varray_remove true (insertShift vb i e) i).elem_size = vb.elem_size := by
    rw [hcore.2.1, insertShift_elem]
  have hc4 := hcore.2.2.2.1
  rw [insertShift_elem, hBtake] at hc4
  have hc5 := hcore.2.2.2.2
  rw [insertShift_elem, insertShift_size] at hc5
  have harith : vb.size + 1 - i - 1 = vb.size - i := by omega
  rw [harith, hBdrop, hshextract] at hc5
  refine ⟨hsz, hes, ?_⟩
  have hsplit : vb.size * vb.elem_size
      = i * vb.elem_size + (vb.size - i) * vb.elem_size := by
    rw [← Nat.add_mul]
    congr 1
    omega
  rw [hsplit, List.take_add, List.take_add, hc4, hc5]

/-- Claim C7: inserting an element at a valid index and then removing at
the same index restores the original element sequence — the original
count and the same elements in the same order. -/
theorem varray_insert_remove_roundtrip (va : VArray) (index : Nat) (e : List Nat)
    (hwf : va.WF) (hidx : index ≤ va.size) (hlen : e.length = va.elem_size) :
    (varray_remove true (varray_insert true va index e) index).size = va.size
    ∧ (varray_remove true (varray_insert true va index e) index).elem_size
        = va.elem_size
    ∧ (varray_remove true (varray_insert true va index e) index).elems
        = va.elems := by
  obtain ⟨hdl, hsc⟩ := hwf
  by_cases hroom : va.size < va.capacity
  · have hins : varray_insert true va index e = insertShift va index e := by
      rw [varray_insert, if_neg (by omega : ¬ index > va.size),
        if_neg (by omega : ¬ va.size ≥ va.capacity)]
    have hcore := insert_remove_core va index e hlen hidx hroom hdl
    rw [hins]
    refine ⟨hcore.1, hcore.2.1, ?_⟩
    refine elems_eq_of_take_eq _ _ hcore.1 hcore.2.1 ?_
    rw [hcore.1, hcore.2.1]
    exact hcore.2.2
  · have hge : va.size ≥ va.capacity := by omega
    have hfull : va.size = va.capacity := le_antisymm hsc hge
    have hnc : (if va.capacity > 0 then va.capacity * 2 else 1)
        = max 1 (va.capacity * 2) := by
      by_cases hc : va.capacity > 0
      · rw [if_pos hc]
        omega
      · rw [if_neg hc]
        omega
    have hle : va.data.length ≤ max 1 (va.capacity * 2) * va.elem_size := by
      rw [hdl]
      exact mul_le_mul_right' (by omega) va.elem_size
    have hr : varray_resize true va (max 1 (va.capacity * 2))
        = some (grownArray va) := by
      rw [varray_resize, if_pos rfl]
      simp only [grownArray, Option.some.injEq, VArray.mk.injEq]
      exact ⟨by omega, trivial, trivial, resizeBytes_of_le _ _ hle⟩
    have key : varray_insert true va index e
        = insertShift (grownArray va) index e := by
      rw [varray_insert, if_neg (by omega : ¬ index > va.size), if_pos hge, hnc]
      simp only [hr]
    have hcore := insert_remove_core (grownArray va) index e hlen hidx
      (by show va.size < max 1 (va.capacity * 2); omega)
      (by
        show (va.data ++ List.replicate
          (max 1 (va.capacity * 2) * va.elem_size - va.data.length) 0).length
            = max 1 (va.capacity * 2) * va.elem_size
        rw [List.length_append, List.length_replicate, hdl]
        have hx : va.capacity * va.elem_size ≤ max 1 (va.capacity * 2) * va.elem_size :=
          mul_le_mul_right' (by omega) va.elem_size
        omega)
    have hpad : (va.data ++ List.replicate
        (max 1 (va.capacity * 2) * va.elem_size - va.data.length) 0).take
          (va.size * va.elem_size) = va.data.take (va.size * va.elem_size) :=
      List.take_append_of_le_length
        (by rw [hdl]; exact mul_le_mul_right' hsc va.elem_size)
    rw [key]
    have h1 : (varray_remove true (insertShift (grownArray va) index e) index).size
        = va.size := hcore.1
    have h2 : (varray_remove true
        (insertShift (grownArray va) index e) index).elem_size
        = va.elem_size := hcore.2.1
    have h3 := hcore.2.2
    dsimp only [grownArray] at h3
    refine ⟨h1, h2, ?_⟩
    refine elems_eq_of_take_eq _ _ h1 h2 ?_
    rw [h1, h2]
    exact h3.trans hpad

/-- Witness for C7 at the concrete one-element array [10, 11] (element
width 2, capacity 1), inserting [20, 21] at index 0 and removing it. -/
theorem varray_insert_remove_roundtrip_witness :
    (varray_remove true (varray_insert true (VArray.mk 1 1 2 [10, 11]) 0 [20, 21]) 0).size = 1
    ∧ (varray_remove true
        (varray_insert true (VArray.mk 1 1 2 [10, 11]) 0 [20, 21]) 0).elem_size = 2
    ∧ (varray_remove true
        (varray_insert true (VArray.mk 1 1 2 [10, 11]) 0 [20, 21]) 0).elems
        = (VArray.mk 1 1 2 [10, 11]).elems :=
  varray_insert_remove_roundtrip (VArray.mk 1 1 2 [10, 11]) 0 [20, 21]
    ⟨rfl, by decide⟩ (by decide) rfl

end Firescript
